import Mathlib

/-!
Shallow embedding of the `raytracing-in-one-weekend-rust` renderer core.
Scalars of type `f64` are modelled by the real numbers; randomness is
modelled by passing the sampled values as explicit arguments; Rust
`Option` maps to Lean `Option`; a Rust `panic!` arm maps to `none`.
-/

namespace RTOW

noncomputable section

/-- Vector of three scalars, laid out as x, y, z (src/vec3.rs, `Vec3`). -/
structure Vec3 where
  x : ℝ
  y : ℝ
  z : ℝ
deriving DecidableEq

namespace Vec3

/-- Componentwise negation (src/vec3.rs, `impl Neg for Vec3`). -/
def neg (v : Vec3) : Vec3 := ⟨-v.x, -v.y, -v.z⟩

instance : Neg Vec3 := ⟨Vec3.neg⟩

/-- Componentwise addition (src/vec3.rs, `impl Add for Vec3`). -/
def add (u v : Vec3) : Vec3 := ⟨u.x + v.x, u.y + v.y, u.z + v.z⟩

instance : Add Vec3 := ⟨Vec3.add⟩

/-- Componentwise subtraction (src/vec3.rs, `impl Sub for Vec3`). -/
def sub (u v : Vec3) : Vec3 := ⟨u.x - v.x, u.y - v.y, u.z - v.z⟩

instance : Sub Vec3 := ⟨Vec3.sub⟩

/-- Componentwise (Hadamard) product (src/vec3.rs, `impl Mul for Vec3`). -/
def hmul (u v : Vec3) : Vec3 := ⟨u.x * v.x, u.y * v.y, u.z * v.z⟩

instance : Mul Vec3 := ⟨Vec3.hmul⟩

/-- Scalar multiplication (src/vec3.rs, `impl Mul<Vec3> for f64`). -/
def smul (k : ℝ) (v : Vec3) : Vec3 := ⟨k * v.x, k * v.y, k * v.z⟩

instance : SMul ℝ Vec3 := ⟨Vec3.smul⟩

/-- Division by a scalar, defined as in the source by multiplying with the
reciprocal (src/vec3.rs, `impl Div<f64> for Vec3`: `(1.0 / rhs) * self`). -/
def div (v : Vec3) (k : ℝ) : Vec3 := (1 / k) • v

/-- Dot product (src/vec3.rs, `Vec3::dot`). -/
def dot (u v : Vec3) : ℝ := u.x * v.x + u.y * v.y + u.z * v.z

/-- Squared Euclidean length (src/vec3.rs, `Vec3::length_squared`). -/
def length_squared (v : Vec3) : ℝ := v.x * v.x + v.y * v.y + v.z * v.z

/-- Euclidean length (src/vec3.rs, `Vec3::length`). -/
def length (v : Vec3) : ℝ := Real.sqrt v.length_squared

/-- Normalisation (src/vec3.rs, `Vec3::unit_vector`: `v / v.length()`). -/
def unit_vector (v : Vec3) : Vec3 := v.div v.length

/-- Mirror reflection about a normal (src/vec3.rs, `Vec3::reflect`:
`*v - 2.0 * Vec3::dot(v, n) * (*n)`). -/
def reflect (v n : Vec3) : Vec3 := v - (2 * Vec3.dot v n) • n

/-- Snell refraction (src/vec3.rs, `Vec3::refract`). -/
def refract (uv n : Vec3) (etai_over_etat : ℝ) : Vec3 :=
  let cos_theta := Vec3.dot (-uv) n
  let r_out_parallel := etai_over_etat • (uv + cos_theta • n)
  let r_out_perp := (-Real.sqrt (1 - r_out_parallel.length_squared)) • n
  r_out_parallel + r_out_perp

/-- Component access by index (src/vec3.rs, `impl Index<usize> for Vec3`).
The `_ => panic!("Vec3 index out of bounds")` arm is modelled by `none`. -/
def index (v : Vec3) (i : ℕ) : Option ℝ :=
  match i with
  | 0 => some v.x
  | 1 => some v.y
  | 2 => some v.z
  | _ => none

/-- Component update by index, modelling a write through the mutable
reference returned by `impl IndexMut<usize> for Vec3` (src/vec3.rs); the
`_ => panic!("Vec3 index out of bounds")` arm is modelled by `none`. -/
def index_set (v : Vec3) (i : ℕ) (val : ℝ) : Option Vec3 :=
  match i with
  | 0 => some ⟨val, v.y, v.z⟩
  | 1 => some ⟨v.x, val, v.z⟩
  | 2 => some ⟨v.x, v.y, val⟩
  | _ => none

end Vec3

/-- Alias, as in the source (src/vec3.rs, `pub type Point3 = Vec3`). -/
abbrev Point3 := Vec3

/-- RGB color newtype over `Vec3` (src/vec3.rs, `pub struct Color(Vec3)`). -/
structure Color where
  vec : Vec3
deriving DecidableEq

namespace Color

/-- Constructor (src/vec3.rs, `Color::new`). -/
def new (r g b : ℝ) : Color := ⟨⟨r, g, b⟩⟩

/-- First component, via the newtype Deref (src/vec3.rs, `x()`). -/
def x (c : Color) : ℝ := c.vec.x

/-- Second component, via the newtype Deref (src/vec3.rs, `y()`). -/
def y (c : Color) : ℝ := c.vec.y

/-- Third component, via the newtype Deref (src/vec3.rs, `z()`). -/
def z (c : Color) : ℝ := c.vec.z

instance : Add Color := ⟨fun a b => ⟨a.vec + b.vec⟩⟩

instance : Mul Color := ⟨fun a b => ⟨a.vec * b.vec⟩⟩

instance : SMul ℝ Color := ⟨fun k c => ⟨k • c.vec⟩⟩

end Color

/-- Ray with origin and direction (src/ray.rs, `Ray`). -/
structure Ray where
  origin : Point3
  direction : Vec3

namespace Ray

/-- Point along the ray (src/ray.rs, `Ray::at`:
`self.origin + Point3::from(t * self.direction)`; `at` is a Lean keyword,
hence the name `pointAt`). -/
def pointAt (r : Ray) (t : ℝ) : Point3 := r.origin + t • r.direction

end Ray

/-- Lambertian diffuse material (src/material.rs, `Lambertian`). -/
structure Lambertian where
  albedo : Color

/-- Fuzzy metal material (src/material.rs, `Metal`). -/
structure Metal where
  albedo : Color
  fuzz : ℝ

/-- Refractive dielectric material (src/material.rs, `Dielectric`). -/
structure Dielectric where
  ref_idx : ℝ

/-- A trait object `dyn Material`: the program has exactly the three
implementations from src/material.rs. -/
inductive Material where
  | lambertianM (m : Lambertian)
  | metalM (m : Metal)
  | dielectricM (m : Dielectric)

/-- Record of a successful intersection. Modelled with the `material`
field required by `Sphere::hit` (src/sphere.rs:43-49) and `ray_color`
(src/main.rs:37); the stale declaration in src/hit.rs:5-11 lacks it and
does not compile against those callers. -/
structure HitRecord where
  p : Point3
  normal : Vec3
  t : ℝ
  front_face : Bool
  material : Material

namespace HitRecord

/-- Constructor deciding facing and orienting the normal (src/hit.rs,
`HitRecord::new`, extended with the material argument that the call site
in src/sphere.rs passes). -/
def new (p : Point3) (r : Ray) (outward_normal : Vec3) (t : ℝ)
    (material : Material) : HitRecord :=
  let front_face : Bool := decide (Vec3.dot r.direction outward_normal < 0)
  let normal := if front_face then outward_normal else -outward_normal
  ⟨p, normal, t, front_face, material⟩

end HitRecord

/-- Sphere surface (src/sphere.rs, `Sphere`). -/
structure Sphere where
  center : Point3
  radius : ℝ
  material : Material

namespace Sphere

/-- The quadratic coefficient `a = r.direction().length_squared()` of the
ray-sphere intersection (local variable of src/sphere.rs, `Sphere::hit`). -/
def qa (r : Ray) : ℝ := r.direction.length_squared

/-- The half linear coefficient `half_b = dot(oc, r.direction())` of the
ray-sphere intersection (local variable of src/sphere.rs, `Sphere::hit`). -/
def half_b (s : Sphere) (r : Ray) : ℝ :=
  Vec3.dot (r.origin - s.center) r.direction

/-- The constant coefficient
`c = oc.length_squared() - radius * radius` (local variable of
src/sphere.rs, `Sphere::hit`). -/
def qc (s : Sphere) (r : Ray) : ℝ :=
  (r.origin - s.center).length_squared - s.radius * s.radius

/-- The discriminant `half_b * half_b - a * c` (local variable of
src/sphere.rs, `Sphere::hit`). -/
def discriminant (s : Sphere) (r : Ray) : ℝ :=
  half_b s r * half_b s r - qa r * qc s r

/-- The near root `(-half_b - sqrt(discriminant)) / a`, the first `temp`
of src/sphere.rs, `Sphere::hit`. -/
def root_near (s : Sphere) (r : Ray) : ℝ :=
  (-half_b s r - Real.sqrt (discriminant s r)) / qa r

/-- The far root `(-half_b + sqrt(discriminant)) / a`, the second `temp`
of src/sphere.rs, `Sphere::hit`. -/
def root_far (s : Sphere) (r : Ray) : ℝ :=
  (-half_b s r + Real.sqrt (discriminant s r)) / qa r

/-- Ray-sphere intersection (src/sphere.rs, `Sphere::hit`): requires a
strictly positive discriminant, then tries the near root and falls back
to the far root, each accepted only strictly inside `(t_min, t_max)`. -/
def hit (s : Sphere) (r : Ray) (t_min t_max : ℝ) : Option HitRecord :=
  if 0 < discriminant s r then
    let temp := root_near s r
    if temp < t_max ∧ t_min < temp then
      let t := temp
      let p := r.pointAt t
      let outward_normal := (p - s.center).div s.radius
      some (HitRecord.new p r outward_normal t s.material)
    else
      let temp2 := root_far s r
      if temp2 < t_max ∧ t_min < temp2 then
        let t := temp2
        let p := r.pointAt t
        let outward_normal := (p - s.center).div s.radius
        some (HitRecord.new p r outward_normal t s.material)
      else none
  else none

end Sphere

/-- Clamp to an interval, by the two successive conditional assignments of
src/utility.rs, `clamp` (the `assert!(min <= max)` precondition holds at
the only call site, which passes `0.0` and `0.999`). -/
def clamp (x min max : ℝ) : ℝ :=
  let x1 := if x < min then min else x
  if max < x1 then max else x1

namespace Metal

/-- Constructor (src/material.rs, `Metal::new`): stores
`if fuzz < 1.0 { fuzz } else { 1.0 }`. -/
def new (albedo : Color) (fuzz : ℝ) : Metal :=
  ⟨albedo, if fuzz < 1 then fuzz else 1⟩

/-- Metal scattering (src/material.rs, `Metal::scatter`); the call to
`Vec3::random_in_unit_sphere()` is modelled by the explicit argument
`rand_in_unit_sphere`. -/
def scatter (m : Metal) (r_in : Ray) (rec : HitRecord)
    (rand_in_unit_sphere : Vec3) : Option (Color × Ray) :=
  let reflected := Vec3.reflect (Vec3.unit_vector r_in.direction) rec.normal
  let scattered : Ray := ⟨rec.p, reflected + m.fuzz • rand_in_unit_sphere⟩
  let attenuation := m.albedo
  if 0 < Vec3.dot scattered.direction rec.normal then
    some (attenuation, scattered)
  else
    none

end Metal

namespace Dielectric

/-- Schlick reflectance approximation (src/material.rs,
`Dielectric::schlick`). -/
def schlick (cosine ref_idx : ℝ) : ℝ :=
  let r0 := (1 - ref_idx) / (1 + ref_idx)
  let r0sq := r0 * r0
  r0sq + (1 - r0sq) * (1 - cosine) ^ 5

/-- The ratio `etai_over_etat` chosen from the facing of the hit record
(local variable of src/material.rs, `Dielectric::scatter`). -/
def etai_over_etat (d : Dielectric) (rec : HitRecord) : ℝ :=
  if rec.front_face then 1 / d.ref_idx else d.ref_idx

/-- The cosine `min(dot(-unit_direction, rec.normal), 1.0)` (local
variable of src/material.rs, `Dielectric::scatter`). -/
def cos_theta (r_in : Ray) (rec : HitRecord) : ℝ :=
  min (Vec3.dot (-(Vec3.unit_vector r_in.direction)) rec.normal) 1

/-- The sine `sqrt(1.0 - cos_theta * cos_theta)` (local variable of
src/material.rs, `Dielectric::scatter`). -/
def sin_theta (r_in : Ray) (rec : HitRecord) : ℝ :=
  Real.sqrt (1 - cos_theta r_in rec * cos_theta r_in rec)

/-- Dielectric scattering (src/material.rs, `Dielectric::scatter`); the
draw `random_f64()` used for the Schlick test is modelled by the explicit
argument `rnd`. -/
def scatter (d : Dielectric) (r_in : Ray) (rec : HitRecord) (rnd : ℝ) :
    Option (Color × Ray) :=
  let attenuation := Color.new 1 1 1
  let unit_direction := Vec3.unit_vector r_in.direction
  if 1 < etai_over_etat d rec * sin_theta r_in rec then
    let reflected := Vec3.reflect unit_direction rec.normal
    let scattered : Ray := ⟨rec.p, reflected⟩
    some (attenuation, scattered)
  else
    let reflect_prob := schlick (cos_theta r_in rec) (etai_over_etat d rec)
    if rnd < reflect_prob then
      let reflected := Vec3.reflect unit_direction rec.normal
      let scattered : Ray := ⟨rec.p, reflected⟩
      some (attenuation, scattered)
    else
      let refracted := Vec3.refract unit_direction rec.normal
        (etai_over_etat d rec)
      let scattered : Ray := ⟨rec.p, refracted⟩
      some (attenuation, scattered)

end Dielectric

/-- An abstract member surface of a `HittableList` (src/hit.rs,
`Rc<dyn Hittable>`), specialised to one fixed ray: `ts` lists the
parameters of its intersections with that ray, and `tag` stands for the
payload (point, normal, material) that identifies the records the member
produces. -/
structure HObject where
  tag : ℕ
  ts : List ℝ

/-- The intersection parameters of a member that lie strictly inside the
open interval `(t_min, t_max)`. -/
def candidatesIn (ts : List ℝ) (t_min t_max : ℝ) : List ℝ :=
  match ts with
  | [] => []
  | t :: rest =>
    if t_min < t ∧ t < t_max then t :: candidatesIn rest t_min t_max
    else candidatesIn rest t_min t_max

/-- Minimum of a list of scalars, `none` on the empty list. -/
def listMin : List ℝ → Option ℝ
  | [] => none
  | t :: rest =>
    match listMin rest with
    | none => some t
    | some m => if t ≤ m then some t else some m

/-- The record a member returns: its tag together with the parameter of
the reported intersection. -/
abbrev ObjRec := ℕ × ℝ

/-- The hit method of an abstract member, as assumed by the claim about
`HittableList::hit` (and as `Sphere::hit` behaves): it returns either
`none` or the record of the nearest intersection with parameter strictly
inside the given interval. -/
def HObject.hit (o : HObject) (t_min t_max : ℝ) : Option ObjRec :=
  match listMin (candidatesIn o.ts t_min t_max) with
  | some t => some (o.tag, t)
  | none => none

/-- The fold of src/hit.rs, `impl Hittable for HittableList`
(`objects.iter().for_each(...)`) with its two mutable locals `hit` and
`closest_so_far` threaded explicitly. -/
def hittableListHitAux (t_min : ℝ) :
    List HObject → Option ObjRec → ℝ → Option ObjRec
  | [], hit, _ => hit
  | o :: rest, hit, closest_so_far =>
    match o.hit t_min closest_so_far with
    | some new_hit => hittableListHitAux t_min rest (some new_hit) new_hit.2
    | none => hittableListHitAux t_min rest hit closest_so_far

/-- Intersection against a list of surfaces (src/hit.rs,
`impl Hittable for HittableList`, lines 77-91): a fold with a shrinking
upper bound initialised to `t_max`, starting from `hit = None`. -/
def hittableListHit (objects : List HObject) (t_min t_max : ℝ) :
    Option ObjRec :=
  hittableListHitAux t_min objects none t_max

/-- Recursive color of a ray (src/main.rs, `ray_color`). The scene query
`world.hit(r, 0.001, f64::INFINITY)` is modelled by the abstract function
`world_hit` (the bounds are folded into it, `f64::INFINITY` having no
real counterpart), and the trait dispatch `rec.material.scatter(r, &rec)`
by the abstract function `scatter` with the randomness pre-sampled. -/
def ray_color (world_hit : Ray → Option HitRecord)
    (scatter : Material → Ray → HitRecord → Option (Color × Ray))
    (r : Ray) (depth : ℤ) : Color :=
  if depth ≤ 0 then Color.new 0 0 0
  else
    match world_hit r with
    | some rec =>
      match scatter rec.material r rec with
      | some (attenuation, scattered) =>
        attenuation * ray_color world_hit scatter scattered (depth - 1)
      | none => Color.new 0 0 0
    | none =>
      let unit_direction := Vec3.unit_vector r.direction
      let t := 0.5 * (unit_direction.y + 1)
      (1 - t) • Color.new 1 1 1 + t • Color.new 0.5 0.7 1
termination_by depth.toNat
decreasing_by
  simp_wf
  omega

/-- Fuel-indexed variant of `ray_color` that consumes one unit of fuel at
each recursive invocation and gives up (returning black) when the fuel is
exhausted; used to bound the recursion depth of `ray_color`. -/
def ray_color_fuel (world_hit : Ray → Option HitRecord)
    (scatter : Material → Ray → HitRecord → Option (Color × Ray)) :
    ℕ → Ray → ℤ → Color
  | fuel, r, depth =>
    if depth ≤ 0 then Color.new 0 0 0
    else
      match world_hit r with
      | some rec =>
        match scatter rec.material r rec with
        | some (attenuation, scattered) =>
          match fuel with
          | 0 => Color.new 0 0 0
          | fuel' + 1 =>
            attenuation *
              ray_color_fuel world_hit scatter fuel' scattered (depth - 1)
        | none => Color.new 0 0 0
      | none =>
        let unit_direction := Vec3.unit_vector r.direction
        let t := 0.5 * (unit_direction.y + 1)
        (1 - t) • Color.new 1 1 1 + t • Color.new 0.5 0.7 1

/-- Truncation of an `f64` to an `i32` as by a Rust `as i32` cast:
toward zero (the values cast in this program lie well inside the `i32`
range, so saturation never applies). -/
def f64_as_i32 (x : ℝ) : ℤ := if 0 ≤ x then ⌊x⌋ else ⌈x⌉

namespace Color

/-- The three integer channel values computed by
src/vec3.rs, `Color::get_color_string`: divide by the sample count,
gamma-correct with a square root, clamp to `[0, 0.999]`, scale by `256`
and cast to `i32`. -/
def get_color_ints (c : Color) (samples_per_pixel : ℤ) : ℤ × ℤ × ℤ :=
  let scale := 1 / (samples_per_pixel : ℝ)
  let r := Real.sqrt (scale * c.x)
  let g := Real.sqrt (scale * c.y)
  let b := Real.sqrt (scale * c.z)
  (f64_as_i32 (256 * clamp r 0 0.999),
   f64_as_i32 (256 * clamp g 0 0.999),
   f64_as_i32 (256 * clamp b 0 0.999))

/-- The formatted pixel line of src/vec3.rs, `Color::get_color_string`:
the three channel integers separated by spaces, with a trailing newline
(`format!("{} {} {}\n", ...)`). -/
def get_color_string (c : Color) (samples_per_pixel : ℤ) : String :=
  let i := get_color_ints c samples_per_pixel
  toString i.1 ++ " " ++ toString i.2.1 ++ " " ++ toString i.2.2 ++ "\n"

end Color

end

/-! Componentwise unfolding lemmas for the vector operations. -/

@[simp] lemma Vec3.neg_x (v : Vec3) : (-v).x = -v.x := rfl

@[simp] lemma Vec3.neg_y (v : Vec3) : (-v).y = -v.y := rfl

@[simp] lemma Vec3.neg_z (v : Vec3) : (-v).z = -v.z := rfl

@[simp] lemma Vec3.add_x (u v : Vec3) : (u + v).x = u.x + v.x := rfl

@[simp] lemma Vec3.add_y (u v : Vec3) : (u + v).y = u.y + v.y := rfl

@[simp] lemma Vec3.add_z (u v : Vec3) : (u + v).z = u.z + v.z := rfl

@[simp] lemma Vec3.sub_x (u v : Vec3) : (u - v).x = u.x - v.x := rfl

@[simp] lemma Vec3.sub_y (u v : Vec3) : (u - v).y = u.y - v.y := rfl

@[simp] lemma Vec3.sub_z (u v : Vec3) : (u - v).z = u.z - v.z := rfl

@[simp] lemma Vec3.hmul_x (u v : Vec3) : (u * v).x = u.x * v.x := rfl

@[simp] lemma Vec3.hmul_y (u v : Vec3) : (u * v).y = u.y * v.y := rfl

@[simp] lemma Vec3.hmul_z (u v : Vec3) : (u * v).z = u.z * v.z := rfl

@[simp] lemma Vec3.smul_x (k : ℝ) (v : Vec3) : (k • v).x = k * v.x := rfl

@[simp] lemma Vec3.smul_y (k : ℝ) (v : Vec3) : (k • v).y = k * v.y := rfl

@[simp] lemma Vec3.smul_z (k : ℝ) (v : Vec3) : (k • v).z = k * v.z := rfl

@[simp] lemma Vec3.add_mk (a b c d e f : ℝ) :
    (⟨a, b, c⟩ + ⟨d, e, f⟩ : Vec3) = ⟨a + d, b + e, c + f⟩ := rfl

@[simp] lemma Vec3.sub_mk (a b c d e f : ℝ) :
    (⟨a, b, c⟩ - ⟨d, e, f⟩ : Vec3) = ⟨a - d, b - e, c - f⟩ := rfl

@[simp] lemma Vec3.hmul_mk (a b c d e f : ℝ) :
    (⟨a, b, c⟩ * ⟨d, e, f⟩ : Vec3) = ⟨a * d, b * e, c * f⟩ := rfl

@[simp] lemma Vec3.smul_mk (k a b c : ℝ) :
    (k • (⟨a, b, c⟩ : Vec3)) = ⟨k * a, k * b, k * c⟩ := rfl

@[simp] lemma Vec3.neg_mk (a b c : ℝ) :
    (-(⟨a, b, c⟩ : Vec3)) = ⟨-a, -b, -c⟩ := rfl

lemma Vec3.dot_comm (u v : Vec3) : Vec3.dot u v = Vec3.dot v u := by
  simp only [Vec3.dot]
  ring

lemma Vec3.dot_neg_left (u v : Vec3) : Vec3.dot (-u) v = -Vec3.dot u v := by
  simp only [Vec3.dot, Vec3.neg_x, Vec3.neg_y, Vec3.neg_z]
  ring

@[simp] lemma HitRecord.new_p (p : Point3) (r : Ray) (n : Vec3) (t : ℝ)
    (m : Material) : (HitRecord.new p r n t m).p = p := rfl

@[simp] lemma HitRecord.new_t (p : Point3) (r : Ray) (n : Vec3) (t : ℝ)
    (m : Material) : (HitRecord.new p r n t m).t = t := rfl

@[simp] lemma HitRecord.new_material (p : Point3) (r : Ray) (n : Vec3)
    (t : ℝ) (m : Material) : (HitRecord.new p r n t m).material = m := rfl

/-- Unfolding of the record constructor into its stored fields. -/
lemma HitRecord.new_def (p : Point3) (r : Ray) (outward_normal : Vec3)
    (t : ℝ) (m : Material) :
    HitRecord.new p r outward_normal t m =
      ⟨p,
       if decide (Vec3.dot r.direction outward_normal < 0) then outward_normal
       else -outward_normal,
       t,
       decide (Vec3.dot r.direction outward_normal < 0),
       m⟩ := rfl

/-- Claim C3: for every point, ray, outward normal, parameter and
material, the record built by `HitRecord::new` has its normal oriented
against the ray, `dot(normal, direction) <= 0`; its `front_face` flag is
true exactly when `dot(direction, outward_normal) < 0`; its stored normal
is the outward normal when front facing and its negation otherwise; and
every record returned by `Sphere::hit` satisfies the same orientation
invariant. -/
theorem hit_record_front_face_invariant :
    (∀ (p : Point3) (r : Ray) (outward_normal : Vec3) (t : ℝ)
        (m : Material),
      Vec3.dot (HitRecord.new p r outward_normal t m).normal r.direction
          ≤ 0 ∧
      ((HitRecord.new p r outward_normal t m).front_face = true ↔
        Vec3.dot r.direction outward_normal < 0) ∧
      (HitRecord.new p r outward_normal t m).normal =
        (if (HitRecord.new p r outward_normal t m).front_face then
          outward_normal
        else -outward_normal)) ∧
    (∀ (s : Sphere) (r : Ray) (t_min t_max : ℝ) (rec : HitRecord),
      Sphere.hit s r t_min t_max = some rec →
      Vec3.dot rec.normal r.direction ≤ 0) := by
  have key : ∀ (p : Point3) (r : Ray) (outward_normal : Vec3) (t : ℝ)
      (m : Material),
      Vec3.dot (HitRecord.new p r outward_normal t m).normal r.direction
          ≤ 0 ∧
      ((HitRecord.new p r outward_normal t m).front_face = true ↔
        Vec3.dot r.direction outward_normal < 0) ∧
      (HitRecord.new p r outward_normal t m).normal =
        (if (HitRecord.new p r outward_normal t m).front_face then
          outward_normal
        else -outward_normal) := by
    intro p r outward_normal t m
    by_cases h : Vec3.dot r.direction outward_normal < 0
    · have hf : (HitRecord.new p r outward_normal t m).front_face
          = true := by
        simp [HitRecord.new, h]
      have hn : (HitRecord.new p r outward_normal t m).normal
          = outward_normal := by
        simp [HitRecord.new, h]
      refine ⟨?_, by simp [hf, h], by simp [hf, hn]⟩
      rw [hn, Vec3.dot_comm]
      exact le_of_lt h
    · have hf : (HitRecord.new p r outward_normal t m).front_face
          = false := by
        simp [HitRecord.new, h]
      have hn : (HitRecord.new p r outward_normal t m).normal
          = -outward_normal := by
        simp [HitRecord.new, h]
      refine ⟨?_, by simp [hf, h], by simp [hf, hn]⟩
      rw [hn, Vec3.dot_neg_left, Vec3.dot_comm]
      simpa using not_lt.mp h
  refine ⟨key, ?_⟩
  intro s r t_min t_max rec hhit
  simp only [Sphere.hit] at hhit
  split_ifs at hhit with h1 h2 h3
  · injection hhit with h
    rw [← h]
    exact (key _ _ _ _ _).1
  · injection hhit with h
    rw [← h]
    exact (key _ _ _ _ _).1

/-- A concrete intersection: the ray from `(0,0,-2)` along `(0,0,1)` meets
the unit sphere at the origin at parameter `t = 1`. -/
lemma sphere_hit_concrete :
    Sphere.hit ⟨⟨0, 0, 0⟩, 1, Material.dielectricM ⟨3 / 2⟩⟩
        ⟨⟨0, 0, -2⟩, ⟨0, 0, 1⟩⟩ 0 10 =
      some (HitRecord.new ⟨0, 0, -1⟩ ⟨⟨0, 0, -2⟩, ⟨0, 0, 1⟩⟩ ⟨0, 0, -1⟩ 1
        (Material.dielectricM ⟨3 / 2⟩)) := by
  norm_num [Sphere.hit, Sphere.discriminant, Sphere.half_b, Sphere.qa,
    Sphere.qc, Sphere.root_near, Sphere.root_far, Vec3.dot,
    Vec3.length_squared, Ray.pointAt, Vec3.div, HitRecord.new]

/-- Witness for claim C3 at a concrete intersection. -/
theorem hit_record_front_face_invariant_witness :
    Sphere.hit ⟨⟨0, 0, 0⟩, 1, Material.dielectricM ⟨3 / 2⟩⟩
        ⟨⟨0, 0, -2⟩, ⟨0, 0, 1⟩⟩ 0 10 =
      some (HitRecord.new ⟨0, 0, -1⟩ ⟨⟨0, 0, -2⟩, ⟨0, 0, 1⟩⟩ ⟨0, 0, -1⟩ 1
        (Material.dielectricM ⟨3 / 2⟩)) ∧
    Vec3.dot
      (HitRecord.new ⟨0, 0, -1⟩ ⟨⟨0, 0, -2⟩, ⟨0, 0, 1⟩⟩ ⟨0, 0, -1⟩ 1
        (Material.dielectricM ⟨3 / 2⟩)).normal
      (Ray.mk ⟨0, 0, -2⟩ ⟨0, 0, 1⟩).direction ≤ 0 :=
  ⟨sphere_hit_concrete,
   hit_record_front_face_invariant.2 _ _ 0 10 _ sphere_hit_concrete⟩

/-- Counterexample to claim C5: `Metal::new` does not clamp a negative
fuzz parameter to `0`; at input `-1` the stored fuzz is `-1`, which lies
outside `[0, 1]`. -/
theorem metal_new_clamp_counterexample :
    (Metal.new (Color.new 1 1 1) (-1)).fuzz = -1 ∧
    ¬(0 ≤ (Metal.new (Color.new 1 1 1) (-1)).fuzz) := by
  constructor
  · norm_num [Metal.new]
  · norm_num [Metal.new]

/-- Claim C5 as amended: at `Metal` construction the fuzz parameter is
clamped only from above to `1`: the stored fuzz is `f` when `f < 1` and
`1` otherwise, hence always at most `1`, equal to `f` for every `f <= 1`
and to `1` for every `f > 1`; a negative input is stored unchanged. The
albedo is stored unchanged. -/
theorem metal_new_fuzz_clamped_above (albedo : Color) (f : ℝ) :
    (Metal.new albedo f).fuzz = (if f < 1 then f else 1) ∧
    (Metal.new albedo f).fuzz ≤ 1 ∧
    (f ≤ 1 → (Metal.new albedo f).fuzz = f) ∧
    (1 < f → (Metal.new albedo f).fuzz = 1) ∧
    (Metal.new albedo f).albedo = albedo := by
  have hdef : (Metal.new albedo f).fuzz = (if f < 1 then f else 1) := rfl
  refine ⟨hdef, ?_, ?_, ?_, rfl⟩
  · rw [hdef]
    split_ifs with h
    · exact le_of_lt h
    · exact le_rfl
  · intro hf
    rw [hdef]
    split_ifs with h
    · rfl
    · exact le_antisymm (not_lt.mp h) hf
  · intro hf
    rw [hdef, if_neg (not_lt.mpr (le_of_lt hf))]

/-- Witness for the amended claim C5 at fuzz inputs `2` and `1/2`. -/
theorem metal_new_fuzz_clamped_above_witness :
    ((1 : ℝ) < 2 ∧ (Metal.new (Color.new 1 1 1) 2).fuzz = 1) ∧
    ((1 / 2 : ℝ) ≤ 1 ∧ (Metal.new (Color.new 1 1 1) (1 / 2)).fuzz
      = 1 / 2) :=
  ⟨⟨by norm_num,
    (metal_new_fuzz_clamped_above (Color.new 1 1 1) 2).2.2.2.1
      (by norm_num)⟩,
   ⟨by norm_num,
    (metal_new_fuzz_clamped_above (Color.new 1 1 1) (1 / 2)).2.2.1
      (by norm_num)⟩⟩

/-- Claim C10: component indexing of `Vec3` is partial: indices `0`, `1`,
`2` return the x, y, z components, and any index at least `3` has no
value (the source panics), both for reads and for writes through the
mutable indexing. -/
theorem vec3_index_out_of_bounds (v : Vec3) :
    Vec3.index v 0 = some v.x ∧
    Vec3.index v 1 = some v.y ∧
    Vec3.index v 2 = some v.z ∧
    (∀ i, 3 ≤ i → Vec3.index v i = none) ∧
    (∀ val, Vec3.index_set v 0 val = some ⟨val, v.y, v.z⟩ ∧
      Vec3.index_set v 1 val = some ⟨v.x, val, v.z⟩ ∧
      Vec3.index_set v 2 val = some ⟨v.x, v.y, val⟩) ∧
    (∀ i val, 3 ≤ i → Vec3.index_set v i val = none) := by
  refine ⟨rfl, rfl, rfl, ?_, fun val => ⟨rfl, rfl, rfl⟩, ?_⟩
  · intro i hi
    obtain ⟨j, rfl⟩ : ∃ j, i = j + 3 := ⟨i - 3, by omega⟩
    rfl
  · intro i val hi
    obtain ⟨j, rfl⟩ : ∃ j, i = j + 3 := ⟨i - 3, by omega⟩
    rfl

/-- Claim C2: `Sphere::hit` misses when the discriminant is not strictly
positive (tangent rays included); with a strictly positive discriminant
it returns the record at the near root when that lies strictly inside
`(t_min, t_max)`, else at the far root when that lies strictly inside,
else `none`; and any returned record has its parameter strictly inside
the bounds, its point on the ray at that parameter, and its outward
normal `(p - center) / radius` there. -/
theorem sphere_hit_cases (s : Sphere) (r : Ray) (t_min t_max : ℝ) :
    (Sphere.discriminant s r ≤ 0 → Sphere.hit s r t_min t_max = none) ∧
    (0 < Sphere.discriminant s r →
      Sphere.root_near s r < t_max → t_min < Sphere.root_near s r →
      Sphere.hit s r t_min t_max =
        some (HitRecord.new (r.pointAt (Sphere.root_near s r)) r
          ((r.pointAt (Sphere.root_near s r) - s.center).div s.radius)
          (Sphere.root_near s r) s.material)) ∧
    (0 < Sphere.discriminant s r →
      ¬(Sphere.root_near s r < t_max ∧ t_min < Sphere.root_near s r) →
      Sphere.root_far s r < t_max → t_min < Sphere.root_far s r →
      Sphere.hit s r t_min t_max =
        some (HitRecord.new (r.pointAt (Sphere.root_far s r)) r
          ((r.pointAt (Sphere.root_far s r) - s.center).div s.radius)
          (Sphere.root_far s r) s.material)) ∧
    (0 < Sphere.discriminant s r →
      ¬(Sphere.root_near s r < t_max ∧ t_min < Sphere.root_near s r) →
      ¬(Sphere.root_far s r < t_max ∧ t_min < Sphere.root_far s r) →
      Sphere.hit s r t_min t_max = none) ∧
    (∀ rec, Sphere.hit s r t_min t_max = some rec →
      t_min < rec.t ∧ rec.t < t_max ∧
      rec = HitRecord.new (r.pointAt rec.t) r
        ((r.pointAt rec.t - s.center).div s.radius) rec.t s.material) := by
  refine ⟨?_, ?_, ?_, ?_, ?_⟩
  · intro h
    simp only [Sphere.hit]
    rw [if_neg (not_lt.mpr h)]
  · intro hd h1 h2
    simp only [Sphere.hit]
    rw [if_pos hd, if_pos ⟨h1, h2⟩]
  · intro hd hnear h1 h2
    simp only [Sphere.hit]
    rw [if_pos hd, if_neg hnear, if_pos ⟨h1, h2⟩]
  · intro hd hnear hfar
    simp only [Sphere.hit]
    rw [if_pos hd, if_neg hnear, if_neg hfar]
  · intro rec hhit
    simp only [Sphere.hit] at hhit
    split_ifs at hhit with h1 h2 h3
    · injection hhit with h
      rw [← h]
      exact ⟨h2.2, h2.1, rfl⟩
    · injection hhit with h
      rw [← h]
      exact ⟨h3.2, h3.1, rfl⟩

/-- Witness for claim C2: on the unit sphere at the origin and the ray
from `(0,0,-2)` along `(0,0,1)`, the discriminant is positive and the
near root `t = 1` lies inside `(0, 10)`, so the near-root record is
returned. -/
theorem sphere_hit_cases_witness :
    0 < Sphere.discriminant ⟨⟨0, 0, 0⟩, 1, Material.dielectricM ⟨3 / 2⟩⟩
        ⟨⟨0, 0, -2⟩, ⟨0, 0, 1⟩⟩ ∧
    Sphere.root_near ⟨⟨0, 0, 0⟩, 1, Material.dielectricM ⟨3 / 2⟩⟩
        ⟨⟨0, 0, -2⟩, ⟨0, 0, 1⟩⟩ < 10 ∧
    (0 : ℝ) < Sphere.root_near ⟨⟨0, 0, 0⟩, 1, Material.dielectricM ⟨3 / 2⟩⟩
        ⟨⟨0, 0, -2⟩, ⟨0, 0, 1⟩⟩ ∧
    Sphere.hit ⟨⟨0, 0, 0⟩, 1, Material.dielectricM ⟨3 / 2⟩⟩
        ⟨⟨0, 0, -2⟩, ⟨0, 0, 1⟩⟩ 0 10 =
      some (HitRecord.new
        ((⟨⟨0, 0, -2⟩, ⟨0, 0, 1⟩⟩ : Ray).pointAt
          (Sphere.root_near ⟨⟨0, 0, 0⟩, 1, Material.dielectricM ⟨3 / 2⟩⟩
            ⟨⟨0, 0, -2⟩, ⟨0, 0, 1⟩⟩))
        ⟨⟨0, 0, -2⟩, ⟨0, 0, 1⟩⟩
        (((⟨⟨0, 0, -2⟩, ⟨0, 0, 1⟩⟩ : Ray).pointAt
            (Sphere.root_near ⟨⟨0, 0, 0⟩, 1, Material.dielectricM ⟨3 / 2⟩⟩
              ⟨⟨0, 0, -2⟩, ⟨0, 0, 1⟩⟩) -
          (⟨⟨0, 0, 0⟩, 1, Material.dielectricM ⟨3 / 2⟩⟩ : Sphere).center).div
          (⟨⟨0, 0, 0⟩, 1, Material.dielectricM ⟨3 / 2⟩⟩ : Sphere).radius)
        (Sphere.root_near ⟨⟨0, 0, 0⟩, 1, Material.dielectricM ⟨3 / 2⟩⟩
          ⟨⟨0, 0, -2⟩, ⟨0, 0, 1⟩⟩)
        (⟨⟨0, 0, 0⟩, 1, Material.dielectricM ⟨3 / 2⟩⟩ : Sphere).material) := by
  have hd : 0 < Sphere.discriminant
      ⟨⟨0, 0, 0⟩, 1, Material.dielectricM ⟨3 / 2⟩⟩
      ⟨⟨0, 0, -2⟩, ⟨0, 0, 1⟩⟩ := by
    norm_num [Sphere.discriminant, Sphere.half_b, Sphere.qa, Sphere.qc,
      Vec3.dot, Vec3.length_squared]
  have hroot : Sphere.root_near ⟨⟨0, 0, 0⟩, 1, Material.dielectricM ⟨3 / 2⟩⟩
      ⟨⟨0, 0, -2⟩, ⟨0, 0, 1⟩⟩ = 1 := by
    norm_num [Sphere.root_near, Sphere.discriminant, Sphere.half_b,
      Sphere.qa, Sphere.qc, Vec3.dot, Vec3.length_squared]
  refine ⟨hd, by rw [hroot]; norm_num, by rw [hroot]; norm_num, ?_⟩
  exact (sphere_hit_cases _ _ 0 10).2.1 hd (by rw [hroot]; norm_num)
    (by rw [hroot]; norm_num)

/-- Claim C7: `Metal::scatter` succeeds exactly when the fuzz-perturbed
reflection leaves the surface on the outward side,
`dot(scattered.direction, normal) > 0`, in which case it returns the
albedo as attenuation and the ray from the hit point along
`reflect(unit(incident), normal) + fuzz * sample`; otherwise it absorbs
the ray and returns `none`. -/
theorem metal_scatter_iff (m : Metal) (r_in : Ray) (rec : HitRecord)
    (rand_in_unit_sphere : Vec3) :
    (∀ out, Metal.scatter m r_in rec rand_in_unit_sphere = some out ↔
      (0 < Vec3.dot
          (Vec3.reflect (Vec3.unit_vector r_in.direction) rec.normal +
            m.fuzz • rand_in_unit_sphere) rec.normal ∧
       out = (m.albedo,
        ⟨rec.p, Vec3.reflect (Vec3.unit_vector r_in.direction) rec.normal +
          m.fuzz • rand_in_unit_sphere⟩))) ∧
    (Metal.scatter m r_in rec rand_in_unit_sphere = none ↔
      ¬(0 < Vec3.dot
          (Vec3.reflect (Vec3.unit_vector r_in.direction) rec.normal +
            m.fuzz • rand_in_unit_sphere) rec.normal)) := by
  constructor
  · intro out
    simp only [Metal.scatter]
    split_ifs with h
    · simp only [h, true_and, Option.some.injEq]
      exact eq_comm
    · simp [h]
  · simp only [Metal.scatter]
    split_ifs with h
    · simp [h]
    · simp [h]

/-- Witness for claim C7: a head-on ray reflected by a perfectly smooth
metal leaves along the normal, so scattering succeeds with the albedo as
attenuation. -/
theorem metal_scatter_iff_witness :
    Metal.scatter ⟨Color.new 1 1 1, 0⟩ ⟨⟨0, 0, 2⟩, ⟨0, 0, -1⟩⟩
        ⟨⟨0, 0, 0⟩, ⟨0, 0, 1⟩, 1, true, Material.metalM ⟨Color.new 1 1 1, 0⟩⟩
        ⟨0, 0, 0⟩ =
      some (Color.new 1 1 1, ⟨⟨0, 0, 0⟩, ⟨0, 0, 1⟩⟩) := by
  refine ((metal_scatter_iff ⟨Color.new 1 1 1, 0⟩ ⟨⟨0, 0, 2⟩, ⟨0, 0, -1⟩⟩
      ⟨⟨0, 0, 0⟩, ⟨0, 0, 1⟩, 1, true, Material.metalM ⟨Color.new 1 1 1, 0⟩⟩
      ⟨0, 0, 0⟩).1 _).mpr ⟨?_, ?_⟩
  · norm_num [Vec3.reflect, Vec3.unit_vector, Vec3.length,
      Vec3.length_squared, Vec3.dot, Vec3.div]
  · norm_num [Vec3.reflect, Vec3.unit_vector, Vec3.length,
      Vec3.length_squared, Vec3.dot, Vec3.div]

/-- Claim C8: `Dielectric::scatter` never absorbs: for every incident
ray, hit record and random draw it returns `some`, with attenuation
exactly white `(1,1,1)`; and when `etai_over_etat * sin_theta > 1`
(total internal reflection) the scattered ray is the reflection of the
unit incident direction about the hit normal. -/
theorem dielectric_scatter_total (d : Dielectric) (r_in : Ray)
    (rec : HitRecord) (rnd : ℝ) :
    (∃ scattered, Dielectric.scatter d r_in rec rnd
        = some (Color.new 1 1 1, scattered)) ∧
    (1 < Dielectric.etai_over_etat d rec * Dielectric.sin_theta r_in rec →
      Dielectric.scatter d r_in rec rnd =
        some (Color.new 1 1 1,
          ⟨rec.p, Vec3.reflect (Vec3.unit_vector r_in.direction)
            rec.normal⟩)) := by
  constructor
  · simp only [Dielectric.scatter]
    split_ifs with h1 h2
    · exact ⟨_, rfl⟩
    · exact ⟨_, rfl⟩
    · exact ⟨_, rfl⟩
  · intro h
    simp only [Dielectric.scatter, if_pos h]

/-- Witness for claim C8: a grazing ray inside a dense dielectric
(`ref_idx = 2`, back face) undergoes total internal reflection. -/
theorem dielectric_scatter_total_witness :
    1 < Dielectric.etai_over_etat ⟨2⟩
        ⟨⟨0, 0, 0⟩, ⟨0, 0, 1⟩, 1, false, Material.dielectricM ⟨2⟩⟩ *
      Dielectric.sin_theta ⟨⟨-1, 0, 0⟩, ⟨1, 0, 0⟩⟩
        ⟨⟨0, 0, 0⟩, ⟨0, 0, 1⟩, 1, false, Material.dielectricM ⟨2⟩⟩ ∧
    Dielectric.scatter ⟨2⟩ ⟨⟨-1, 0, 0⟩, ⟨1, 0, 0⟩⟩
        ⟨⟨0, 0, 0⟩, ⟨0, 0, 1⟩, 1, false, Material.dielectricM ⟨2⟩⟩ 0 =
      some (Color.new 1 1 1,
        ⟨(⟨⟨0, 0, 0⟩, ⟨0, 0, 1⟩, 1, false,
            Material.dielectricM ⟨2⟩⟩ : HitRecord).p,
         Vec3.reflect
           (Vec3.unit_vector (⟨⟨-1, 0, 0⟩, ⟨1, 0, 0⟩⟩ : Ray).direction)
           (⟨⟨0, 0, 0⟩, ⟨0, 0, 1⟩, 1, false,
             Material.dielectricM ⟨2⟩⟩ : HitRecord).normal⟩) := by
  have htir : 1 < Dielectric.etai_over_etat ⟨2⟩
      ⟨⟨0, 0, 0⟩, ⟨0, 0, 1⟩, 1, false, Material.dielectricM ⟨2⟩⟩ *
      Dielectric.sin_theta ⟨⟨-1, 0, 0⟩, ⟨1, 0, 0⟩⟩
        ⟨⟨0, 0, 0⟩, ⟨0, 0, 1⟩, 1, false, Material.dielectricM ⟨2⟩⟩ := by
    norm_num [Dielectric.etai_over_etat, Dielectric.sin_theta,
      Dielectric.cos_theta, Vec3.unit_vector, Vec3.length,
      Vec3.length_squared, Vec3.dot, Vec3.div, min_def]
  exact ⟨htir,
    (dielectric_scatter_total ⟨2⟩ ⟨⟨-1, 0, 0⟩, ⟨1, 0, 0⟩⟩
      ⟨⟨0, 0, 0⟩, ⟨0, 0, 1⟩, 1, false, Material.dielectricM ⟨2⟩⟩ 0).2 htir⟩

/-- Witness for claim C10: reads and writes at in-range and out-of-range
indices of a concrete vector. -/
theorem vec3_index_out_of_bounds_witness :
    Vec3.index ⟨1, 2, 3⟩ 0 = some 1 ∧
    (3 ≤ 5 ∧ Vec3.index ⟨1, 2, 3⟩ 5 = none) ∧
    (3 ≤ 7 ∧ Vec3.index_set ⟨1, 2, 3⟩ 7 9 = none) :=
  ⟨(vec3_index_out_of_bounds ⟨1, 2, 3⟩).1,
   ⟨by norm_num, (vec3_index_out_of_bounds ⟨1, 2, 3⟩).2.2.2.1 5 (by norm_num)⟩,
   ⟨by norm_num,
    (vec3_index_out_of_bounds ⟨1, 2, 3⟩).2.2.2.2.2 7 9 (by norm_num)⟩⟩

/-- The clamp of src/utility.rs keeps its result inside the interval. -/
lemma clamp_mem (x mn mx : ℝ) (h : mn ≤ mx) :
    mn ≤ clamp x mn mx ∧ clamp x mn mx ≤ mx := by
  simp only [clamp]
  split_ifs with h1 h2 h3 <;> constructor <;> linarith

/-- One output channel of `get_color_string`: the `as i32` cast equals
the floor (the value is nonnegative), and the result lies in
`[0, 255]`. -/
lemma f64_as_i32_channel (v : ℝ) :
    f64_as_i32 (256 * clamp v 0 0.999) = ⌊256 * clamp v 0 0.999⌋ ∧
    0 ≤ ⌊256 * clamp v 0 0.999⌋ ∧ ⌊256 * clamp v 0 0.999⌋ ≤ 255 := by
  have hc := clamp_mem v 0 0.999 (by norm_num)
  have h0 : 0 ≤ 256 * clamp v 0 0.999 := by linarith [hc.1]
  refine ⟨by rw [f64_as_i32, if_pos h0], Int.floor_nonneg.mpr h0, ?_⟩
  have hlt : 256 * clamp v 0 0.999 < 256 := by nlinarith [hc.2]
  have : ⌊256 * clamp v 0 0.999⌋ < 256 := by
    apply Int.floor_lt.mpr
    push_cast
    exact hlt
  omega

/-- Claim C9: for every accumulated pixel color with nonnegative
channels and every positive sample count, the three channel integers
produced by `Color::get_color_string` are
`floor(256 * clamp(sqrt(channel / samples), 0, 0.999))`, and each lies
in `[0, 255]`. -/
theorem get_color_string_range (c : Color) (samples_per_pixel : ℤ)
    (hx : 0 ≤ c.x) (hy : 0 ≤ c.y) (hz : 0 ≤ c.z)
    (hs : 0 < samples_per_pixel) :
    Color.get_color_ints c samples_per_pixel =
      (⌊256 * clamp (Real.sqrt (c.x / (samples_per_pixel : ℝ)))
          0 0.999⌋,
       ⌊256 * clamp (Real.sqrt (c.y / (samples_per_pixel : ℝ)))
          0 0.999⌋,
       ⌊256 * clamp (Real.sqrt (c.z / (samples_per_pixel : ℝ)))
          0 0.999⌋) ∧
    (0 ≤ (Color.get_color_ints c samples_per_pixel).1 ∧
      (Color.get_color_ints c samples_per_pixel).1 ≤ 255) ∧
    (0 ≤ (Color.get_color_ints c samples_per_pixel).2.1 ∧
      (Color.get_color_ints c samples_per_pixel).2.1 ≤ 255) ∧
    (0 ≤ (Color.get_color_ints c samples_per_pixel).2.2 ∧
      (Color.get_color_ints c samples_per_pixel).2.2 ≤ 255) := by
  have heq : Color.get_color_ints c samples_per_pixel =
      (⌊256 * clamp (Real.sqrt (c.x / (samples_per_pixel : ℝ)))
          0 0.999⌋,
       ⌊256 * clamp (Real.sqrt (c.y / (samples_per_pixel : ℝ)))
          0 0.999⌋,
       ⌊256 * clamp (Real.sqrt (c.z / (samples_per_pixel : ℝ)))
          0 0.999⌋) := by
    simp only [Color.get_color_ints, one_div_mul_eq_div]
    rw [(f64_as_i32_channel _).1, (f64_as_i32_channel _).1,
      (f64_as_i32_channel _).1]
  refine ⟨heq, ?_, ?_, ?_⟩ <;> rw [heq]
  · exact ⟨(f64_as_i32_channel _).2.1, (f64_as_i32_channel _).2.2⟩
  · exact ⟨(f64_as_i32_channel _).2.1, (f64_as_i32_channel _).2.2⟩
  · exact ⟨(f64_as_i32_channel _).2.1, (f64_as_i32_channel _).2.2⟩

/-- Witness for claim C9 at the black pixel accumulated over 100
samples. -/
theorem get_color_string_range_witness :
    0 ≤ (Color.get_color_ints (Color.new 0 0 0) 100).1 ∧
    (Color.get_color_ints (Color.new 0 0 0) 100).1 ≤ 255 ∧
    0 ≤ (Color.get_color_ints (Color.new 0 0 0) 100).2.1 ∧
    (Color.get_color_ints (Color.new 0 0 0) 100).2.2 ≤ 255 :=
  ⟨(get_color_string_range (Color.new 0 0 0) 100 le_rfl le_rfl le_rfl
      (by norm_num)).2.1.1,
   (get_color_string_range (Color.new 0 0 0) 100 le_rfl le_rfl le_rfl
      (by norm_num)).2.1.2,
   (get_color_string_range (Color.new 0 0 0) 100 le_rfl le_rfl le_rfl
      (by norm_num)).2.2.1.1,
   (get_color_string_range (Color.new 0 0 0) 100 le_rfl le_rfl le_rfl
      (by norm_num)).2.2.2.2⟩

/-- Claim C4: `ray_color` with a nonpositive depth returns exactly black
without consulting the scene, and its recursion is bounded: the
fuel-indexed variant already computes the same value with
`max(depth, 0)` units of fuel, so the recursion depth never exceeds
`max(depth, 0)` whatever the scene does. -/
theorem ray_color_terminates :
    (∀ (world_hit : Ray → Option HitRecord)
        (scatter : Material → Ray → HitRecord → Option (Color × Ray))
        (r : Ray) (depth : ℤ), depth ≤ 0 →
      ray_color world_hit scatter r depth = Color.new 0 0 0) ∧
    (∀ (world_hit world_hit' : Ray → Option HitRecord)
        (scatter scatter' :
          Material → Ray → HitRecord → Option (Color × Ray))
        (r : Ray) (depth : ℤ), depth ≤ 0 →
      ray_color world_hit scatter r depth
        = ray_color world_hit' scatter' r depth) ∧
    (∀ (world_hit : Ray → Option HitRecord)
        (scatter : Material → Ray → HitRecord → Option (Color × Ray))
        (fuel : ℕ) (r : Ray) (depth : ℤ), depth.toNat ≤ fuel →
      ray_color_fuel world_hit scatter fuel r depth
        = ray_color world_hit scatter r depth) := by
  have hblack : ∀ (world_hit : Ray → Option HitRecord)
      (scatter : Material → Ray → HitRecord → Option (Color × Ray))
      (r : Ray) (depth : ℤ), depth ≤ 0 →
      ray_color world_hit scatter r depth = Color.new 0 0 0 := by
    intro w s r depth h
    rw [ray_color, if_pos h]
  refine ⟨hblack, ?_, ?_⟩
  · intro w w' s s' r depth h
    rw [hblack w s r depth h, hblack w' s' r depth h]
  · intro w s fuel
    induction fuel with
    | zero =>
      intro r depth h
      have hd : depth ≤ 0 := by omega
      rw [ray_color_fuel, hblack w s r depth hd, if_pos hd]
    | succ n ih =>
      intro r depth h
      by_cases hd : depth ≤ 0
      · rw [ray_color_fuel, hblack w s r depth hd, if_pos hd]
      · rw [ray_color_fuel, ray_color]
        simp only [if_neg hd]
        cases hw : w r with
        | none => simp only [hw]
        | some rec =>
          simp only [hw]
          cases hs : s rec.material r rec with
          | none => simp only [hs]
          | some out =>
            obtain ⟨att, sc⟩ := out
            simp only [hs]
            rw [ih sc (depth - 1) (by omega)]

/-- Witness for claim C4: at depth `0` the integrator returns black and
zero fuel suffices, on the empty scene. -/
theorem ray_color_terminates_witness :
    ((0 : ℤ) ≤ 0 ∧
      ray_color (fun _ => none) (fun _ _ _ => none)
        ⟨⟨0, 0, 0⟩, ⟨0, 0, 1⟩⟩ 0 = Color.new 0 0 0) ∧
    ((0 : ℤ).toNat ≤ 0 ∧
      ray_color_fuel (fun _ => none) (fun _ _ _ => none) 0
          ⟨⟨0, 0, 0⟩, ⟨0, 0, 1⟩⟩ 0 =
        ray_color (fun _ => none) (fun _ _ _ => none)
          ⟨⟨0, 0, 0⟩, ⟨0, 0, 1⟩⟩ 0) :=
  ⟨⟨le_rfl,
    ray_color_terminates.1 (fun _ => none) (fun _ _ _ => none)
      ⟨⟨0, 0, 0⟩, ⟨0, 0, 1⟩⟩ 0 le_rfl⟩,
   ⟨by norm_num,
    ray_color_terminates.2.2 (fun _ => none) (fun _ _ _ => none) 0
      ⟨⟨0, 0, 0⟩, ⟨0, 0, 1⟩⟩ 0 (by norm_num)⟩⟩

/-- Claim C6 (against the intended record layout, the one required by
src/sphere.rs and src/main.rs; the stale struct in src/hit.rs lacks the
field): every record returned by `Sphere::hit` carries the sphere
material alongside point, normal, parameter and facing, and whenever the
scene query of the integrator yields a record whose material scatters,
`ray_color` continues with exactly that scattering result. -/
theorem hit_record_carries_material :
    (∀ (s : Sphere) (r : Ray) (t_min t_max : ℝ) (rec : HitRecord),
      Sphere.hit s r t_min t_max = some rec →
      rec.material = s.material) ∧
    (∀ (world_hit : Ray → Option HitRecord)
        (scatter : Material → Ray → HitRecord → Option (Color × Ray))
        (r : Ray) (depth : ℤ) (rec : HitRecord) (out : Color × Ray),
      ¬depth ≤ 0 → world_hit r = some rec →
      scatter rec.material r rec = some out →
      ray_color world_hit scatter r depth =
        out.1 * ray_color world_hit scatter out.2 (depth - 1)) := by
  constructor
  · intro s r t_min t_max rec hhit
    simp only [Sphere.hit] at hhit
    split_ifs at hhit with h1 h2 h3
    · injection hhit with h
      rw [← h]
      rfl
    · injection hhit with h
      rw [← h]
      rfl
  · intro w s r depth rec out hd hw hs
    obtain ⟨att, sc⟩ := out
    rw [ray_color]
    simp only [if_neg hd, hw, hs]

/-- Witness for claim C6: the concrete sphere intersection stores the
sphere material in the record, and a one-bounce integrator step uses the
scattering of that material. -/
theorem hit_record_carries_material_witness :
    (HitRecord.new ⟨0, 0, -1⟩ ⟨⟨0, 0, -2⟩, ⟨0, 0, 1⟩⟩ ⟨0, 0, -1⟩ 1
        (Material.dielectricM ⟨3 / 2⟩)).material =
      (⟨⟨0, 0, 0⟩, 1, Material.dielectricM ⟨3 / 2⟩⟩ : Sphere).material ∧
    ray_color
        (fun _ => some (HitRecord.new ⟨0, 0, -1⟩ ⟨⟨0, 0, -2⟩, ⟨0, 0, 1⟩⟩
          ⟨0, 0, -1⟩ 1 (Material.dielectricM ⟨3 / 2⟩)))
        (fun _ _ _ => some (Color.new 1 1 1, ⟨⟨0, 0, 0⟩, ⟨0, 0, 1⟩⟩))
        ⟨⟨0, 0, -2⟩, ⟨0, 0, 1⟩⟩ 1 =
      (Color.new 1 1 1, (⟨⟨0, 0, 0⟩, ⟨0, 0, 1⟩⟩ : Ray)).1 *
        ray_color
          (fun _ => some (HitRecord.new ⟨0, 0, -1⟩ ⟨⟨0, 0, -2⟩, ⟨0, 0, 1⟩⟩
            ⟨0, 0, -1⟩ 1 (Material.dielectricM ⟨3 / 2⟩)))
          (fun _ _ _ => some (Color.new 1 1 1, ⟨⟨0, 0, 0⟩, ⟨0, 0, 1⟩⟩))
          (Color.new 1 1 1, (⟨⟨0, 0, 0⟩, ⟨0, 0, 1⟩⟩ : Ray)).2 (1 - 1) :=
  ⟨hit_record_carries_material.1 ⟨⟨0, 0, 0⟩, 1, Material.dielectricM ⟨3 / 2⟩⟩
      ⟨⟨0, 0, -2⟩, ⟨0, 0, 1⟩⟩ 0 10 _ sphere_hit_concrete,
   hit_record_carries_material.2
      (fun _ => some (HitRecord.new ⟨0, 0, -1⟩ ⟨⟨0, 0, -2⟩, ⟨0, 0, 1⟩⟩
        ⟨0, 0, -1⟩ 1 (Material.dielectricM ⟨3 / 2⟩)))
      (fun _ _ _ => some (Color.new 1 1 1, ⟨⟨0, 0, 0⟩, ⟨0, 0, 1⟩⟩))
      ⟨⟨0, 0, -2⟩, ⟨0, 0, 1⟩⟩ 1 _ _ (by norm_num) rfl rfl⟩

/-- Membership in the filtered candidate list unfolds to membership plus
the strict interval bounds. -/
lemma mem_candidatesIn {t : ℝ} (ts : List ℝ) (t_min t_max : ℝ) :
    t ∈ candidatesIn ts t_min t_max ↔
      t ∈ ts ∧ t_min < t ∧ t < t_max := by
  induction ts with
  | nil => simp [candidatesIn]
  | cons a rest ih =>
    simp only [candidatesIn]
    split_ifs with h
    · simp only [List.mem_cons, ih]
      constructor
      · rintro (rfl | ⟨hm, hb⟩)
        · exact ⟨Or.inl rfl, h⟩
        · exact ⟨Or.inr hm, hb⟩
      · rintro ⟨rfl | hm, hb⟩
        · exact Or.inl rfl
        · exact Or.inr ⟨hm, hb⟩
    · simp only [List.mem_cons, ih]
      constructor
      · rintro ⟨hm, hb⟩
        exact ⟨Or.inr hm, hb⟩
      · rintro ⟨rfl | hm, hb⟩
        · exact absurd hb h
        · exact ⟨hm, hb⟩

/-- The minimum of a list of scalars is `none` exactly on the empty
list. -/
lemma listMin_eq_none {l : List ℝ} : listMin l = none ↔ l = [] := by
  cases l with
  | nil => simp [listMin]
  | cons a rest =>
    simp only [listMin]
    cases h : listMin rest with
    | none => simp
    | some m =>
      dsimp only
      split_ifs <;> simp

/-- The minimum of a list of scalars is a member and a lower bound. -/
lemma listMin_spec {l : List ℝ} {m : ℝ} (h : listMin l = some m) :
    m ∈ l ∧ ∀ x ∈ l, m ≤ x := by
  induction l generalizing m with
  | nil => exact Option.noConfusion h
  | cons a rest ih =>
    simp only [listMin] at h
    cases hr : listMin rest with
    | none =>
      rw [hr] at h
      dsimp only at h
      injection h with h
      subst h
      have hrest : rest = [] := listMin_eq_none.mp hr
      subst hrest
      refine ⟨List.mem_cons_self _ _, ?_⟩
      intro x hx
      rcases List.mem_cons.mp hx with rfl | hx
      · exact le_rfl
      · exact absurd hx (List.not_mem_nil x)
    | some b =>
      rw [hr] at h
      dsimp only at h
      obtain ⟨hb, hball⟩ := ih hr
      split_ifs at h with hab
      · injection h with h
        subst h
        refine ⟨List.mem_cons_self _ _, ?_⟩
        intro x hx
        rcases List.mem_cons.mp hx with rfl | hx
        · exact le_rfl
        · exact le_trans hab (hball x hx)
      · injection h with h
        subst h
        refine ⟨List.mem_cons_of_mem _ hb, ?_⟩
        intro x hx
        rcases List.mem_cons.mp hx with rfl | hx
        · exact le_of_lt (not_le.mp hab)
        · exact hball x hx

/-- A member reports no hit exactly when it has no intersection strictly
inside the interval. -/
lemma hobject_hit_none {o : HObject} {t_min t_max : ℝ} :
    o.hit t_min t_max = none ↔
      candidatesIn o.ts t_min t_max = [] := by
  rw [HObject.hit]
  constructor
  · intro h
    cases hm : listMin (candidatesIn o.ts t_min t_max) with
    | none => exact listMin_eq_none.mp hm
    | some t =>
      simp only [hm] at h
      exact Option.noConfusion h
  · intro h
    simp [h, listMin]

/-- A reported hit carries the member tag and the nearest intersection
strictly inside the interval. -/
lemma hobject_hit_some {o : HObject} {t_min t_max : ℝ} {nh : ObjRec}
    (h : o.hit t_min t_max = some nh) :
    nh.1 = o.tag ∧ nh.2 ∈ candidatesIn o.ts t_min t_max ∧
    ∀ x ∈ candidatesIn o.ts t_min t_max, nh.2 ≤ x := by
  rw [HObject.hit] at h
  cases hm : listMin (candidatesIn o.ts t_min t_max) with
  | none =>
    simp only [hm] at h
    exact Option.noConfusion h
  | some t =>
    simp only [hm] at h
    injection h with h
    obtain ⟨hmem, hle⟩ := listMin_spec hm
    rw [← h]
    exact ⟨rfl, hmem, hle⟩

/-- The fold ignores members without intersections below the running
bound and returns the accumulator unchanged. -/
lemma aux_all_empty (t_min : ℝ) (objs : List HObject)
    (acc : Option ObjRec) (closest : ℝ)
    (h : ∀ o ∈ objs, candidatesIn o.ts t_min closest = []) :
    hittableListHitAux t_min objs acc closest = acc := by
  induction objs generalizing acc closest with
  | nil => rfl
  | cons o rest ih =>
    rw [hittableListHitAux]
    have ho : o.hit t_min closest = none :=
      hobject_hit_none.mpr (h o (List.mem_cons_self o rest))
    simp only [ho]
    exact ih acc closest fun o' ho' => h o' (List.mem_cons_of_mem _ ho')

/-- Core invariant of the shrinking-bound fold: as soon as some member
has an intersection strictly below the running bound, the fold produces,
for any accumulator, the record of the member with the globally smallest
intersection, ties broken in favor of the earliest member. -/
lemma aux_finds_nearest (t_min : ℝ) :
    ∀ (objs : List HObject) (closest : ℝ) (acc : Option ObjRec),
    (∃ o ∈ objs, candidatesIn o.ts t_min closest ≠ []) →
    ∃ (i : ℕ) (hi : i < objs.length) (t : ℝ),
      hittableListHitAux t_min objs acc closest
        = some ((objs.get ⟨i, hi⟩).tag, t) ∧
      t ∈ candidatesIn (objs.get ⟨i, hi⟩).ts t_min closest ∧
      (∀ o ∈ objs, ∀ u ∈ candidatesIn o.ts t_min closest, t ≤ u) ∧
      (∀ j (hj : j < objs.length), j < i →
        ∀ u ∈ candidatesIn (objs.get ⟨j, hj⟩).ts t_min closest,
          t < u) := by
  intro objs
  induction objs with
  | nil =>
    intro closest acc h
    simp at h
  | cons o rest ih =>
    intro closest acc hex
    rw [hittableListHitAux]
    cases ho : o.hit t_min closest with
    | some nh =>
      simp only [ho]
      obtain ⟨htag, hmem, hmin⟩ := hobject_hit_some ho
      have hb := (mem_candidatesIn o.ts t_min closest).mp hmem
      by_cases hrest : ∃ o' ∈ rest, candidatesIn o'.ts t_min nh.2 ≠ []
      · obtain ⟨i, hi, t, heq, htmem, hglobal, htie⟩ :=
          ih nh.2 (some nh) hrest
        have ht_lt : t < nh.2 :=
          ((mem_candidatesIn _ _ _).mp htmem).2.2
        refine ⟨i + 1, Nat.succ_lt_succ hi, t, heq, ?_, ?_, ?_⟩
        · have hw := (mem_candidatesIn _ t_min nh.2).mp htmem
          exact (mem_candidatesIn _ t_min closest).mpr
            ⟨hw.1, hw.2.1, lt_trans hw.2.2 hb.2.2⟩
        · intro o' ho' u hu
          rcases List.mem_cons.mp ho' with rfl | ho'
          · exact le_of_lt (lt_of_lt_of_le ht_lt (hmin u hu))
          · have hub := (mem_candidatesIn _ _ _).mp hu
            by_cases hcase : u < nh.2
            · exact hglobal o' ho' u
                ((mem_candidatesIn _ _ _).mpr ⟨hub.1, hub.2.1, hcase⟩)
            · exact le_of_lt (lt_of_lt_of_le ht_lt (not_lt.mp hcase))
        · intro j hj hji u hu
          cases j with
          | zero =>
            exact lt_of_lt_of_le ht_lt (hmin u hu)
          | succ j' =>
            have hj' : j' < rest.length := Nat.lt_of_succ_lt_succ hj
            have hji' : j' < i := Nat.lt_of_succ_lt_succ hji
            have hub := (mem_candidatesIn _ _ _).mp hu
            by_cases hcase : u < nh.2
            · exact htie j' hj' hji' u
                ((mem_candidatesIn _ _ _).mpr ⟨hub.1, hub.2.1, hcase⟩)
            · exact lt_of_lt_of_le ht_lt (not_lt.mp hcase)
      · push_neg at hrest
        have hacc : hittableListHitAux t_min rest (some nh) nh.2
            = some nh := aux_all_empty t_min rest (some nh) nh.2 hrest
        refine ⟨0, Nat.succ_pos _, nh.2, ?_, hmem, ?_, ?_⟩
        · show hittableListHitAux t_min rest (some nh) nh.2
            = some (o.tag, nh.2)
          rw [hacc, ← htag]
        · intro o' ho' u hu
          rcases List.mem_cons.mp ho' with rfl | ho'
          · exact hmin u hu
          · by_contra hlt
            push_neg at hlt
            have hub := (mem_candidatesIn _ _ _).mp hu
            have humem : u ∈ candidatesIn o'.ts t_min nh.2 :=
              (mem_candidatesIn _ _ _).mpr ⟨hub.1, hub.2.1, hlt⟩
            rw [hrest o' ho'] at humem
            exact List.not_mem_nil u humem
        · intro j hj hji u hu
          exact absurd hji (Nat.not_lt_zero j)
    | none =>
      simp only [ho]
      have hoe : candidatesIn o.ts t_min closest = [] :=
        hobject_hit_none.mp ho
      have hrest : ∃ o' ∈ rest, candidatesIn o'.ts t_min closest ≠ [] := by
        obtain ⟨o', ho', hne⟩ := hex
        rcases List.mem_cons.mp ho' with rfl | ho'
        · exact absurd hoe hne
        · exact ⟨o', ho', hne⟩
      obtain ⟨i, hi, t, heq, htmem, hglobal, htie⟩ := ih closest acc hrest
      refine ⟨i + 1, Nat.succ_lt_succ hi, t, heq, htmem, ?_, ?_⟩
      · intro o' ho' u hu
        rcases List.mem_cons.mp ho' with rfl | ho'
        · have hu' : u ∈ candidatesIn o'.ts t_min closest := hu
          rw [hoe] at hu'
          exact absurd hu' (List.not_mem_nil u)
        · exact hglobal o' ho' u hu
      · intro j hj hji u hu
        cases j with
        | zero =>
          have hu' : u ∈ candidatesIn o.ts t_min closest := hu
          rw [hoe] at hu'
          exact absurd hu' (List.not_mem_nil u)
        | succ j' =>
          exact htie j' (Nat.lt_of_succ_lt_succ hj)
            (Nat.lt_of_succ_lt_succ hji) u hu

/-- Claim C1: under the assumed member behavior (each member reports its
nearest intersection strictly inside the queried interval, as
`Sphere::hit` does), `HittableList::hit` returns `none` exactly when no
member intersects inside `(t_min, t_max)`, and any returned record
belongs to the member with the globally smallest intersection parameter
in `(t_min, t_max)`, every earlier member having only strictly larger
intersections (ties go to the earliest member in iteration order). -/
theorem hittable_list_hit_nearest (objects : List HObject)
    (t_min t_max : ℝ) :
    (hittableListHit objects t_min t_max = none ↔
      ∀ o ∈ objects, candidatesIn o.ts t_min t_max = []) ∧
    (∀ tag t, hittableListHit objects t_min t_max = some (tag, t) →
      ∃ (i : ℕ) (hi : i < objects.length),
        tag = (objects.get ⟨i, hi⟩).tag ∧
        t ∈ candidatesIn (objects.get ⟨i, hi⟩).ts t_min t_max ∧
        (∀ o ∈ objects, ∀ u ∈ candidatesIn o.ts t_min t_max, t ≤ u) ∧
        (∀ j (hj : j < objects.length), j < i →
          ∀ u ∈ candidatesIn (objects.get ⟨j, hj⟩).ts t_min t_max,
            t < u)) := by
  constructor
  · constructor
    · intro h o ho
      by_contra hne
      obtain ⟨i, hi, t, heq, -⟩ :=
        aux_finds_nearest t_min objects t_max none ⟨o, ho, hne⟩
      rw [hittableListHit] at h
      rw [h] at heq
      exact Option.noConfusion heq
    · intro h
      rw [hittableListHit]
      exact aux_all_empty t_min objects none t_max h
  · intro tag t hsome
    by_cases hex : ∃ o ∈ objects, candidatesIn o.ts t_min t_max ≠ []
    · obtain ⟨i, hi, t', heq, htmem, hglob, htie⟩ :=
        aux_finds_nearest t_min objects t_max none hex
      rw [hittableListHit] at hsome
      rw [hsome] at heq
      injection heq with heq
      have htag : tag = (objects.get ⟨i, hi⟩).tag :=
        congrArg Prod.fst heq
      have ht : t = t' := congrArg Prod.snd heq
      rw [← ht] at htmem hglob htie
      exact ⟨i, hi, htag, htmem, hglob, htie⟩
    · push_neg at hex
      rw [hittableListHit,
        aux_all_empty t_min objects none t_max hex] at hsome
      exact Option.noConfusion hsome

/-- Witness for claim C1: with a first member hitting at parameter 5 and
a second member hitting at parameter 3, the fold returns the record of
the second member at the global minimum 3; and a single member with no
intersection yields `none`. -/
theorem hittable_list_hit_nearest_witness :
    hittableListHit [⟨5, [5]⟩, ⟨7, [3]⟩] 0 10 = some (7, 3) ∧
    (∀ o ∈ ([⟨5, [5]⟩, ⟨7, [3]⟩] : List HObject),
      ∀ u ∈ candidatesIn o.ts 0 10, (3 : ℝ) ≤ u) ∧
    hittableListHit [⟨1, ([] : List ℝ)⟩] 0 10 = none := by
  have hconc : hittableListHit [⟨5, [5]⟩, ⟨7, [3]⟩] 0 10
      = some (7, 3) := by
    norm_num [hittableListHit, hittableListHitAux, HObject.hit,
      candidatesIn, listMin]
  obtain ⟨i, hi, -, -, hglob, -⟩ :=
    (hittable_list_hit_nearest [⟨5, [5]⟩, ⟨7, [3]⟩] 0 10).2 7 3 hconc
  refine ⟨hconc, hglob, ?_⟩
  refine (hittable_list_hit_nearest [⟨1, ([] : List ℝ)⟩] 0 10).1.mpr ?_
  intro o ho
  obtain rfl := List.mem_singleton.mp ho
  rfl

end RTOW
